import Mathlib

/-!
Verification of the `ai-stripper` text normalizer and its diff reporter.

The embedding works over code points represented as `Nat` and strings as
`List Nat`.  The normalizer `strip_non_human_chars` is translated from
`src/api/app.py`; the diff reporter embeds the `difflib.SequenceMatcher`
algorithm from the CPython standard library (as invoked by the endpoint
with `isjunk=None` and the default `autojunk=True`), since the endpoint
delegates diff construction to it.
-/

namespace AIStripper

/-! ## Rule tables (from `src/api/app.py`)

`_hidden_chars_to_remove` is a set; the maps are Python dicts, modelled as
`Nat → Option (List Nat)` (a present key returns the replacement string as
a list of code points). -/

/-- Rule 1 set: explicit members `U+00AD, U+180E, U+200B–U+200F,
`U+202A–U+202E`, `U+2060`, `U+FEFF` plus the ranges `U+2061–U+206F` and
`U+FE00–U+FE0F` added via `range` comprehensions. -/
def hidden_chars_to_remove (c : Nat) : Bool :=
  c = 0xAD ∨ c = 0x180E ∨ c = 0x200B ∨ c = 0x200C ∨ c = 0x200D ∨
  c = 0x200E ∨ c = 0x200F ∨ c = 0x202A ∨ c = 0x202B ∨ c = 0x202C ∨
  c = 0x202D ∨ c = 0x202E ∨ c = 0x2060 ∨ c = 0xFEFF ∨
  (0x2061 ≤ c ∧ c ≤ 0x206F) ∨ (0xFE00 ≤ c ∧ c ≤ 0xFE0F)

/-- Rule 2 dict: sixteen space-like keys, all mapping to `" "` (code 32). -/
def space_map (c : Nat) : Option (List Nat) :=
  if c = 0xA0 ∨ c = 0x1680 ∨ c = 0x2000 ∨ c = 0x2001 ∨ c = 0x2002 ∨
     c = 0x2003 ∨ c = 0x2004 ∨ c = 0x2005 ∨ c = 0x2006 ∨ c = 0x2007 ∨
     c = 0x2008 ∨ c = 0x2009 ∨ c = 0x200A ∨ c = 0x202F ∨ c = 0x205F ∨
     c = 0x3000 then some [32] else none

/-- Rule 3 dict: five dash keys, all mapping to `"-"` (code 45). -/
def dash_map (c : Nat) : Option (List Nat) :=
  if c = 0x2012 ∨ c = 0x2013 ∨ c = 0x2014 ∨ c = 0x2015 ∨ c = 0x2212 then
    some [45] else none

/-- Rule 4 dict: single-style marks and primes map to `"'"` (39),
double-style marks, double primes and guillemets to `"\""` (34), and the
triple prime `U+2034` to the empty string. -/
def quote_map (c : Nat) : Option (List Nat) :=
  if c = 0x2018 ∨ c = 0x2019 ∨ c = 0x201A ∨ c = 0x201B ∨
     c = 0x2032 ∨ c = 0x2035 then some [39]
  else if c = 0x201C ∨ c = 0x201D ∨ c = 0x201E ∨ c = 0x201F ∨
          c = 0x2033 ∨ c = 0x2036 ∨ c = 0xAB ∨ c = 0xBB then some [34]
  else if c = 0x2034 then some []
  else none

/-- Rule 5 dict: ellipsis to `"..."`, bullet to `"*"`, middle dot to `"."`. -/
def misc_map (c : Nat) : Option (List Nat) :=
  if c = 0x2026 then some [46, 46, 46]
  else if c = 0x2022 then some [42]
  else if c = 0xB7 then some [46]
  else none

/-- The `is_emoji` elif chain of `strip_non_human_chars`: the eight closed
emoji ranges checked after the ASCII test. -/
def is_emoji (c : Nat) : Bool :=
  (0x1F600 ≤ c ∧ c ≤ 0x1F64F) ∨ (0x1F300 ≤ c ∧ c ≤ 0x1F5FF) ∨
  (0x1F680 ≤ c ∧ c ≤ 0x1F6FF) ∨ (0x1F900 ≤ c ∧ c ≤ 0x1F9FF) ∨
  (0x2700 ≤ c ∧ c ≤ 0x27BF) ∨ (0x1FA70 ≤ c ∧ c ≤ 0x1FAFF) ∨
  (0x1F1E6 ≤ c ∧ c ≤ 0x1F1FF) ∨ (0x2600 ≤ c ∧ c ≤ 0x26FF)

/-- The loop body of `strip_non_human_chars`: what one input code point
contributes to `processed_chars`.  Rule 4 appends the looked-up replacement
only when it is non-empty, which contributes exactly the replacement list
(the `U+2034` entry contributes nothing).  The fullwidth rule emits
`chr(ord(c) - 0xFEE0)`; the final fallback emits nothing. -/
def processChar (c : Nat) : List Nat :=
  if hidden_chars_to_remove c then []
  else match space_map c with
  | some r => r
  | none => match dash_map c with
    | some r => r
    | none => match quote_map c with
      | some r => r
      | none => match misc_map c with
        | some r => r
        | none =>
          if 0xFF01 ≤ c ∧ c ≤ 0xFF5E then [c - 0xFEE0]
          else if c ≤ 127 then [c]
          else if is_emoji c then [c]
          else []

/-- `strip_non_human_chars`: the per-character loop appends each
character's contribution to `processed_chars` and joins the result. -/
def strip_non_human_chars (s : List Nat) : List Nat :=
  s.flatMap processChar

/-- Fallible version of the loop body: the one operation in the Python
body that can raise is the dict indexing `_quote_map[char_val]`
(a `KeyError` when the key is absent), guarded by the `in` test.  Every
other step is total.  Used to state that normalization never raises. -/
def processCharE (c : Nat) : Except String (List Nat) :=
  if hidden_chars_to_remove c then .ok []
  else match space_map c with
  | some r => .ok r
  | none => match dash_map c with
    | some r => .ok r
    | none =>
      if (quote_map c).isSome then
        match quote_map c with
        | some r => .ok r
        | none => .error "KeyError"
      else match misc_map c with
        | some r => .ok r
        | none =>
          if 0xFF01 ≤ c ∧ c ≤ 0xFF5E then .ok [c - 0xFEE0]
          else if c ≤ 127 then .ok [c]
          else if is_emoji c then .ok [c]
          else .ok []

/-- Fallible version of `strip_non_human_chars`. -/
def strip_non_human_charsE (s : List Nat) : Except String (List Nat) :=
  match s with
  | [] => .ok []
  | c :: rest =>
    match processCharE c, strip_non_human_charsE rest with
    | .ok out, .ok outs => .ok (out ++ outs)
    | .error e, _ => .error e
    | _, .error e => .error e

/-! ## Diff reporter: the `difflib.SequenceMatcher` algorithm

The endpoint builds `difflib.SequenceMatcher(None, original, cleaned)` and
reads `get_opcodes()`.  The definitions below embed CPython's
implementation for `isjunk=None` (so the junk set `bjunk` is empty and the
two junk-extension loops of `find_longest_match` never fire) and the
default `autojunk=True` (elements of `b` occurring more than
`len(b) // 100 + 1` times are dropped from `b2j` when `len(b) >= 200`). -/

/-- Python slice `l[i:j]` (for `i ≤ j`; both ends clamp to the length). -/
def slice (l : List Nat) (i j : Nat) : List Nat := (l.drop i).take (j - i)

/-- The ascending list of indices `j` with `b[j] == x`; this is the list
`__chain_b` accumulates in the dict entry `b2j[x]`. -/
def b2j_indices (b : List Nat) (x : Nat) : List Nat :=
  (List.range b.length).filter (fun j => b.getD j 0 = x)

/-- The autojunk "popular" test of `__chain_b`. -/
def b2j_popular (b : List Nat) (x : Nat) : Bool :=
  200 ≤ b.length ∧ b.length / 100 + 1 < (b2j_indices b x).length

/-- `b2j.get(x, [])` after `__chain_b` purged popular entries. -/
def b2j (b : List Nat) (x : Nat) : List Nat :=
  if b2j_popular b x then [] else b2j_indices b x

/-- Inner loop of `find_longest_match` over `b2j.get(a[i], [])`: threads
the fresh dict `newj2len` and the running best `(besti, bestj, bestsize)`.
`j < blo` is the `continue`, `j >= bhi` the `break`.  In Python `j2len.get
(j-1, 0)` reads index `-1` when `j = 0`, which is absent, hence the guard.
Dicts are modelled as total functions defaulting to `0`. -/
def innerLoop (j2len : Nat → Nat) (i blo bhi : Nat) :
    List Nat → (Nat → Nat) → Nat × Nat × Nat → (Nat → Nat) × (Nat × Nat × Nat)
  | [], newj2len, best => (newj2len, best)
  | j :: js, newj2len, best =>
    if j < blo then innerLoop j2len i blo bhi js newj2len best
    else if bhi ≤ j then (newj2len, best)
    else
      innerLoop j2len i blo bhi js
        (fun x => if x = j then (if j = 0 then 0 else j2len (j - 1)) + 1
                  else newj2len x)
        (if best.2.2 < (if j = 0 then 0 else j2len (j - 1)) + 1 then
          (i + 1 - ((if j = 0 then 0 else j2len (j - 1)) + 1),
           j + 1 - ((if j = 0 then 0 else j2len (j - 1)) + 1),
           (if j = 0 then 0 else j2len (j - 1)) + 1)
         else best)

/-- Outer loop of `find_longest_match`: `for i in range(alo, ahi)`, with
`cnt` the number of remaining iterations. -/
def dpLoop (bj : Nat → List Nat) (a : List Nat) (blo bhi : Nat) :
    Nat → Nat → (Nat → Nat) → Nat × Nat × Nat → Nat × Nat × Nat
  | _, 0, _, best => best
  | i, cnt + 1, j2len, best =>
    let r := innerLoop j2len i blo bhi (bj (a.getD i 0)) (fun _ => 0) best
    dpLoop bj a blo bhi (i + 1) cnt r.1 r.2

/-- First `while` of `find_longest_match`: extend the best match backwards
over equal elements (`isbjunk` is constantly false for `isjunk=None`).
Structural recursion on `besti`; when `besti = 0` the guard
`besti > alo` is false, matching the loop exit. -/
def extendBack (a b : List Nat) (alo blo : Nat) :
    Nat → Nat → Nat → Nat × Nat × Nat
  | 0, bestj, bestsize => (0, bestj, bestsize)
  | besti + 1, bestj, bestsize =>
    if alo < besti + 1 ∧ blo < bestj ∧
        a.getD besti 0 = b.getD (bestj - 1) 0 then
      extendBack a b alo blo besti (bestj - 1) (bestsize + 1)
    else (besti + 1, bestj, bestsize)

/-- Second `while` of `find_longest_match`, run on fuel
`ahi - (besti + bestsize)`: the guard `besti + bestsize < ahi` forces the
loop to stop within that many iterations, and whenever the fuel is
exhausted the guard is false, so the fuel variant exits exactly when the
`while` loop does. -/
def extendFwdAux (a b : List Nat) (ahi bhi besti bestj : Nat) :
    Nat → Nat → Nat
  | 0, bestsize => bestsize
  | fuel + 1, bestsize =>
    if besti + bestsize < ahi ∧ bestj + bestsize < bhi ∧
        a.getD (besti + bestsize) 0 = b.getD (bestj + bestsize) 0 then
      extendFwdAux a b ahi bhi besti bestj fuel (bestsize + 1)
    else bestsize

def extendFwd (a b : List Nat) (ahi bhi besti bestj bestsize : Nat) : Nat :=
  extendFwdAux a b ahi bhi besti bestj (ahi - (besti + bestsize)) bestsize

/-- `find_longest_match(alo, ahi, blo, bhi)`: the DP over rows followed by
the two non-junk extension passes (the junk passes are no-ops since
`bjunk` is empty). -/
def find_longest_match (a b : List Nat) (bj : Nat → List Nat)
    (alo ahi blo bhi : Nat) : Nat × Nat × Nat :=
  let d := dpLoop bj a blo bhi alo (ahi - alo) (fun _ => 0) (alo, blo, 0)
  let e := extendBack a b alo blo d.1 d.2.1 d.2.2
  (e.1, e.2.1, extendFwd a b ahi bhi e.1 e.2.1 e.2.2)

/-- `a` and `b` agree on the `k` positions starting at `i` resp. `j`. -/
def RunEq (a b : List Nat) (i j k : Nat) : Prop :=
  ∀ t, t < k → a.getD (i + t) 0 = b.getD (j + t) 0

/-- Invariant of the running best triple of `find_longest_match` on
window `[alo, ahi) × [blo, bhi)`. -/
def BestInv (a b : List Nat) (alo blo ahi bhi : Nat) :
    Nat × Nat × Nat → Prop
  | (besti, bestj, bestsize) =>
    (bestsize = 0 → besti = alo ∧ bestj = blo) ∧
    (bestsize ≠ 0 → alo ≤ besti ∧ blo ≤ bestj ∧ besti + bestsize ≤ ahi ∧
      bestj + bestsize ≤ bhi ∧ RunEq a b besti bestj bestsize)

/-- Invariant of the dict `j2len` when the rows `alo, …, i-1` have been
processed: a nonzero entry at `j` records a maximal-so-far run ending at
row `i-1`, column `j`. -/
def J2Prev (a b : List Nat) (alo blo bhi i : Nat) (f : Nat → Nat) : Prop :=
  ∀ j, f j ≠ 0 → alo + f j ≤ i ∧ blo + f j ≤ j + 1 ∧ j < bhi ∧
    RunEq a b (i - f j) (j + 1 - f j) (f j)

theorem b2j_mem (b : List Nat) (x j : Nat) (h : j ∈ b2j b x) :
    b.getD j 0 = x := by
  unfold b2j at h
  split at h
  · simp at h
  · unfold b2j_indices at h
    simp only [List.mem_filter, decide_eq_true_eq] at h
    exact h.2

theorem innerLoop_inv (a b : List Nat) (alo blo ahi bhi i : Nat)
    (f : Nat → Nat) (hf : J2Prev a b alo blo bhi i f)
    (hia : alo ≤ i) (hih : i < ahi) :
    ∀ (js : List Nat) (nf : Nat → Nat) (best : Nat × Nat × Nat),
    (∀ j ∈ js, b.getD j 0 = a.getD i 0) →
    J2Prev a b alo blo bhi (i + 1) nf →
    BestInv a b alo blo ahi bhi best →
    J2Prev a b alo blo bhi (i + 1) (innerLoop f i blo bhi js nf best).1 ∧
    BestInv a b alo blo ahi bhi (innerLoop f i blo bhi js nf best).2 := by
  intro js
  induction js with
  | nil =>
    intro nf best _ hnf hbest
    exact ⟨hnf, hbest⟩
  | cons j js ih =>
    intro nf best hmem hnf hbest
    simp only [innerLoop]
    split
    · exact ih nf best (fun x hx => hmem x (List.mem_cons_of_mem _ hx)) hnf hbest
    · split
      · exact ⟨hnf, hbest⟩
      · rename_i hblo hbhi
        have hab : b.getD j 0 = a.getD i 0 := hmem j (List.mem_cons_self _ _)
        -- the facts about the new run of length k ending at (i, j)
        have hrun : ∀ k, (if j = 0 then 0 else f (j - 1)) + 1 = k →
            1 ≤ k ∧ alo + k ≤ i + 1 ∧ blo + k ≤ j + 1 ∧
            RunEq a b (i + 1 - k) (j + 1 - k) k := by
          intro k hk
          by_cases hj0 : j = 0
          · rw [if_pos hj0] at hk
            refine ⟨by omega, by omega, by omega, ?_⟩
            intro t ht
            have ht0 : t = 0 := by omega
            have hkk : k = 1 := by omega
            rw [ht0, hkk]
            simpa using hab.symm
          · rw [if_neg hj0] at hk
            rcases Nat.eq_zero_or_pos (f (j - 1)) with hl0 | hlpos
            · rw [hl0] at hk
              refine ⟨by omega, by omega, by omega, ?_⟩
              intro t ht
              have ht0 : t = 0 := by omega
              have hkk : k = 1 := by omega
              rw [ht0, hkk]
              simpa using hab.symm
            · obtain ⟨hp1, hp2, _, hp4⟩ := hf (j - 1) (by omega)
              have hji : j - 1 + 1 = j := by omega
              rw [hji] at hp2 hp4
              refine ⟨by omega, by omega, by omega, ?_⟩
              intro t ht
              have hle1 : f (j - 1) ≤ i := by omega
              have hle2 : f (j - 1) ≤ j := by omega
              have e1 : i + 1 - k = i - f (j - 1) := by omega
              have e2 : j + 1 - k = j - f (j - 1) := by omega
              rw [e1, e2]
              rcases Nat.lt_succ_iff_lt_or_eq.1 (by omega : t < f (j - 1) + 1)
                with h | h
              · exact hp4 t h
              · rw [h]
                have e3 : i - f (j - 1) + f (j - 1) = i := by omega
                have e4 : j - f (j - 1) + f (j - 1) = j := by omega
                rw [e3, e4]
                exact hab.symm
        obtain ⟨hk1, hk2, hk3, hk4⟩ := hrun _ rfl
        generalize hgen : (if j = 0 then 0 else f (j - 1)) + 1 = k
          at hk1 hk2 hk3 hk4 ⊢
        refine ih _ _ (fun x hx => hmem x (List.mem_cons_of_mem _ hx)) ?_ ?_
        · -- the updated newj2len satisfies the invariant
          intro j' hj'
          beta_reduce at hj' ⊢
          by_cases hjj : j' = j
          · rw [if_pos hjj] at hj' ⊢
            rw [hjj]
            exact ⟨hk2, hk3, by omega, hk4⟩
          · rw [if_neg hjj] at hj' ⊢
            exact hnf j' hj'
        · -- the updated best satisfies the invariant
          by_cases hlt : best.2.2 < k
          · rw [if_pos hlt]
            constructor
            · intro h0; omega
            · intro _
              refine ⟨by omega, by omega, ?_, by omega, hk4⟩
              omega
          · rw [if_neg hlt]
            exact hbest

theorem dpLoop_inv (bj : Nat → List Nat) (a b : List Nat)
    (alo blo ahi bhi : Nat) (hbj : ∀ x j, j ∈ bj x → b.getD j 0 = x) :
    ∀ (cnt i : Nat) (f : Nat → Nat) (best : Nat × Nat × Nat),
    alo ≤ i → i + cnt ≤ ahi →
    J2Prev a b alo blo bhi i f →
    BestInv a b alo blo ahi bhi best →
    BestInv a b alo blo ahi bhi (dpLoop bj a blo bhi i cnt f best) := by
  intro cnt
  induction cnt with
  | zero => intro i f best _ _ _ hbest; exact hbest
  | succ n ih =>
    intro i f best hia hcnt hf hbest
    simp only [dpLoop]
    have h := innerLoop_inv a b alo blo ahi bhi i f hf hia (by omega)
      (bj (a.getD i 0)) (fun _ => 0) best (fun j hj => hbj _ j hj)
      (fun j hj => absurd rfl hj) hbest
    exact ih (i + 1) _ _ (by omega) (by omega) h.1 h.2

theorem extendBack_inv (a b : List Nat) (alo blo ahi bhi : Nat) :
    ∀ (besti bestj bestsize : Nat),
    BestInv a b alo blo ahi bhi (besti, bestj, bestsize) →
    BestInv a b alo blo ahi bhi (extendBack a b alo blo besti bestj bestsize) := by
  intro besti
  induction besti with
  | zero => intro bestj bestsize h; exact h
  | succ n ih =>
    intro bestj bestsize h
    rw [extendBack]
    split
    · rename_i hg
      obtain ⟨hg1, hg2, hg3⟩ := hg
      have hnz : bestsize ≠ 0 := by
        intro h0
        have := (h.1 h0).1
        omega
      obtain ⟨hb1, hb2, hb3, hb4, hb5⟩ := h.2 hnz
      refine ih (bestj - 1) (bestsize + 1) ?_
      constructor
      · intro h0; simp at h0
      · intro _
        refine ⟨by omega, by omega, by omega, by omega, ?_⟩
        intro t ht
        rcases Nat.eq_zero_or_pos t with ht0 | htpos
        · rw [ht0]
          simpa using hg3
        · have e1 : n + t = n + 1 + (t - 1) := by omega
          have e2 : bestj - 1 + t = bestj + (t - 1) := by omega
          rw [e1, e2]
          exact hb5 (t - 1) (by omega)
    · exact h

theorem extendFwdAux_inv (a b : List Nat) (alo blo ahi bhi besti bestj : Nat) :
    ∀ (fuel bestsize : Nat),
    BestInv a b alo blo ahi bhi (besti, bestj, bestsize) →
    BestInv a b alo blo ahi bhi
      (besti, bestj, extendFwdAux a b ahi bhi besti bestj fuel bestsize) := by
  intro fuel
  induction fuel with
  | zero => intro bestsize h; exact h
  | succ n ih =>
    intro bestsize h
    rw [extendFwdAux]
    split
    · rename_i hg
      obtain ⟨hg1, hg2, hg3⟩ := hg
      refine ih (bestsize + 1) ?_
      have hij : alo ≤ besti ∧ blo ≤ bestj := by
        rcases Nat.eq_zero_or_pos bestsize with h0 | hpos
        · have := h.1 h0; omega
        · have := h.2 (by omega); exact ⟨this.1, this.2.1⟩
      constructor
      · intro h0; simp at h0
      · intro _
        refine ⟨hij.1, hij.2, by omega, by omega, ?_⟩
        intro t ht
        rcases Nat.lt_succ_iff_lt_or_eq.1 ht with hlt | heq
        · rcases Nat.eq_zero_or_pos bestsize with h0 | hpos
          · omega
          · exact (h.2 (by omega)).2.2.2.2 t hlt
        · rw [heq]
          exact hg3
    · exact h

/-- The result of `find_longest_match` is a valid (possibly empty) common
run inside the window when the index lists passed in only name positions
that really hold the looked-up element. -/
theorem find_longest_match_spec (a b : List Nat) (bj : Nat → List Nat)
    (hbj : ∀ x j, j ∈ bj x → b.getD j 0 = x) (alo ahi blo bhi : Nat) :
    BestInv a b alo blo ahi bhi (find_longest_match a b bj alo ahi blo bhi) := by
  have hinit : BestInv a b alo blo ahi bhi (alo, blo, 0) := by
    constructor
    · intro _; exact ⟨rfl, rfl⟩
    · intro h; simp at h
  have hd : BestInv a b alo blo ahi bhi
      (dpLoop bj a blo bhi alo (ahi - alo) (fun _ => 0) (alo, blo, 0)) := by
    rcases le_or_lt alo ahi with hle | hlt
    · exact dpLoop_inv bj a b alo blo ahi bhi hbj (ahi - alo) alo _ _
        le_rfl (by omega) (fun j hj => absurd rfl hj) hinit
    · have h0 : ahi - alo = 0 := by omega
      rw [h0]
      exact hinit
  have he := extendBack_inv a b alo blo ahi bhi _ _ _ hd
  exact extendFwdAux_inv a b alo blo ahi bhi _ _ _ _ he

/-- The recursive form of `get_matching_blocks`'s divide-and-conquer
(CPython flattens it with an explicit queue and sorts the results; the
recursion produces the same list already sorted, since every block found
left of the chosen match lies strictly before it and every block right of
it strictly after it, componentwise).  The matcher always consults the
`b2j` mapping built from `b`.  The recursion runs on fuel one larger than
the window measure `(ahi - alo) + (bhi - blo)`: by
`find_longest_match_spec` every recursive call shrinks that measure, so
the fuel (which shrinks by exactly one per call) is never exhausted and
the `0` case is unreachable (`mblocksAux_fuel` below). -/
def mblocksAux (a b : List Nat) :
    Nat → Nat → Nat → Nat → Nat → List (Nat × Nat × Nat)
  | 0, _, _, _, _ => []
  | fuel + 1, alo, ahi, blo, bhi =>
    match find_longest_match a b (b2j b) alo ahi blo bhi with
    | (i, j, k) =>
      if k = 0 then []
      else
        (if alo < i ∧ blo < j then mblocksAux a b fuel alo i blo j else []) ++
        (i, j, k) ::
        (if i + k < ahi ∧ j + k < bhi then
          mblocksAux a b fuel (i + k) ahi (j + k) bhi else [])

def mblocks (a b : List Nat) (alo ahi blo bhi : Nat) :
    List (Nat × Nat × Nat) :=
  mblocksAux a b ((ahi - alo) + (bhi - blo) + 1) alo ahi blo bhi

/-- The collapse loop at the end of `get_matching_blocks`: adjacent equal
blocks are merged; the accumulator starts as the dummy `(0, 0, 0)` and a
pending block is emitted only when nonzero. -/
def collapseBlocks : Nat → Nat → Nat → List (Nat × Nat × Nat) →
    List (Nat × Nat × Nat)
  | i1, j1, k1, [] => if k1 ≠ 0 then [(i1, j1, k1)] else []
  | i1, j1, k1, (i2, j2, k2) :: rest =>
    if i1 + k1 = i2 ∧ j1 + k1 = j2 then collapseBlocks i1 j1 (k1 + k2) rest
    else (if k1 ≠ 0 then [(i1, j1, k1)] else []) ++ collapseBlocks i2 j2 k2 rest

/-- `get_matching_blocks`: collapsed blocks plus the `(la, lb, 0)`
sentinel. -/
def get_matching_blocks (a b : List Nat) : List (Nat × Nat × Nat) :=
  collapseBlocks 0 0 0 (mblocks a b 0 a.length 0 b.length) ++
    [(a.length, b.length, 0)]

inductive OpTag
  | replace
  | delete
  | insert
  | equal
deriving DecidableEq, Repr

/-- The loop of `get_opcodes`: the cursor `(i, j)` starts at `(0, 0)`; each
matching block first yields the opcode for the gap before it (`replace`,
`delete` or `insert`, or nothing), then an `equal` opcode when its size is
nonzero. -/
def opcodeLoop : Nat → Nat → List (Nat × Nat × Nat) →
    List (OpTag × Nat × Nat × Nat × Nat)
  | _, _, [] => []
  | i, j, (ai, bj, size) :: rest =>
    (if i < ai ∧ j < bj then [(OpTag.replace, i, ai, j, bj)]
     else if i < ai then [(OpTag.delete, i, ai, j, bj)]
     else if j < bj then [(OpTag.insert, i, ai, j, bj)]
     else []) ++
    (if size ≠ 0 then [(OpTag.equal, ai, ai + size, bj, bj + size)] else []) ++
    opcodeLoop (ai + size) (bj + size) rest

def get_opcodes (a b : List Nat) : List (OpTag × Nat × Nat × Nat × Nat) :=
  opcodeLoop 0 0 (get_matching_blocks a b)

inductive SegKind
  | equal
  | insert
  | delete
deriving DecidableEq, Repr

/-- A `DiffSegment` of the endpoint's response model. -/
structure DiffSegment where
  kind : SegKind
  text : List Nat
deriving DecidableEq, Repr

/-- How `strip_content_endpoint` turns one opcode into response segments:
`equal`/`delete` take `original_text[i1:i2]`, `insert` takes
`cleaned_text[j1:j2]`, `replace` appends a `delete` segment then an
`insert` segment. -/
def opcodeSegments (a b : List Nat) :
    OpTag × Nat × Nat × Nat × Nat → List DiffSegment
  | (OpTag.equal, i1, i2, _, _) => [⟨SegKind.equal, slice a i1 i2⟩]
  | (OpTag.delete, i1, i2, _, _) => [⟨SegKind.delete, slice a i1 i2⟩]
  | (OpTag.insert, _, _, j1, j2) => [⟨SegKind.insert, slice b j1 j2⟩]
  | (OpTag.replace, i1, i2, j1, j2) =>
    [⟨SegKind.delete, slice a i1 i2⟩, ⟨SegKind.insert, slice b j1 j2⟩]

/-- The list `diff_segments` built by the endpoint from the opcodes of
`SequenceMatcher(None, a, b)`. -/
def diff_segments (a b : List Nat) : List DiffSegment :=
  (get_opcodes a b).flatMap (opcodeSegments a b)

/-- `strip_content_endpoint`: returns the cleaned text, and the diff
segments when the text changed (`None` when `original == cleaned`). -/
def strip_content_endpoint (s : List Nat) : List Nat × Option (List DiffSegment) :=
  (strip_non_human_chars s,
   if s = strip_non_human_chars s then none
   else some (diff_segments s (strip_non_human_chars s)))

/-- The fuel of `mblocksAux` is irrelevant as soon as it exceeds the
window measure, so `mblocks` computes the fuel-free recursion. -/
theorem mblocksAux_fuel (a b : List Nat) :
    ∀ (f1 f2 alo ahi blo bhi : Nat),
    (ahi - alo) + (bhi - blo) < f1 → (ahi - alo) + (bhi - blo) < f2 →
    mblocksAux a b f1 alo ahi blo bhi = mblocksAux a b f2 alo ahi blo bhi := by
  intro f1
  induction f1 with
  | zero => intro f2 alo ahi blo bhi h1 h2; omega
  | succ n ih =>
    intro f2 alo ahi blo bhi h1 h2
    obtain ⟨m, rfl⟩ : ∃ m, f2 = m + 1 := ⟨f2 - 1, by omega⟩
    have hs := find_longest_match_spec a b (b2j b) (b2j_mem b) alo ahi blo bhi
    rcases hm : find_longest_match a b (b2j b) alo ahi blo bhi with ⟨i, j, k⟩
    rw [hm] at hs
    simp only [mblocksAux, hm]
    by_cases hk : k = 0
    · simp [hk]
    · obtain ⟨hb1, hb2, hb3, hb4, -⟩ := hs.2 hk
      rw [if_neg hk, if_neg hk]
      congr 1
      · by_cases hc : alo < i ∧ blo < j
        · rw [if_pos hc, if_pos hc]
          exact ih m alo i blo j (by omega) (by omega)
        · rw [if_neg hc, if_neg hc]
      · congr 1
        by_cases hc : i + k < ahi ∧ j + k < bhi
        · rw [if_pos hc, if_pos hc]
          exact ih m (i + k) ahi (j + k) bhi (by omega) (by omega)
        · rw [if_neg hc, if_neg hc]

/-- Well-formed block lists: each block lies inside
`[loI, hiI) × [loJ, hiJ)`, is nonempty, names an equal run, and the
blocks are ordered (each one starts at or after the end of the previous
one). -/
def WfBlocks (a b : List Nat) (hiI hiJ : Nat) :
    Nat → Nat → List (Nat × Nat × Nat) → Prop
  | _, _, [] => True
  | loI, loJ, (ai, bj, k) :: rest =>
    loI ≤ ai ∧ loJ ≤ bj ∧ 1 ≤ k ∧ ai + k ≤ hiI ∧ bj + k ≤ hiJ ∧
    RunEq a b ai bj k ∧ WfBlocks a b hiI hiJ (ai + k) (bj + k) rest

theorem WfBlocks_mono_lo (a b : List Nat) (hiI hiJ : Nat)
    (loI loJ loI' loJ' : Nat) (h1 : loI' ≤ loI) (h2 : loJ' ≤ loJ) :
    ∀ bs, WfBlocks a b hiI hiJ loI loJ bs →
    WfBlocks a b hiI hiJ loI' loJ' bs := by
  intro bs
  match bs with
  | [] => intro h; exact h
  | (ai, bj, k) :: rest =>
    intro h
    obtain ⟨w1, w2, w3, w4, w5, w6, w7⟩ := h
    exact ⟨by omega, by omega, w3, w4, w5, w6, w7⟩

theorem WfBlocks_mono_hi (a b : List Nat) (hiI hiJ hiI' hiJ' : Nat)
    (h1 : hiI ≤ hiI') (h2 : hiJ ≤ hiJ') :
    ∀ bs loI loJ, WfBlocks a b hiI hiJ loI loJ bs →
    WfBlocks a b hiI' hiJ' loI loJ bs := by
  intro bs
  induction bs with
  | nil => intro loI loJ h; exact h
  | cons blk rest ih =>
    rcases blk with ⟨ai, bj, k⟩
    intro loI loJ h
    obtain ⟨w1, w2, w3, w4, w5, w6, w7⟩ := h
    exact ⟨w1, w2, w3, by omega, by omega, w6, ih _ _ w7⟩

theorem WfBlocks_append (a b : List Nat) (hiI hiJ mI mJ : Nat)
    (hmi : mI ≤ hiI) (hmj : mJ ≤ hiJ) :
    ∀ (xs ys : List (Nat × Nat × Nat)) (loI loJ : Nat),
    WfBlocks a b mI mJ loI loJ xs →
    WfBlocks a b hiI hiJ mI mJ ys →
    loI ≤ mI → loJ ≤ mJ →
    WfBlocks a b hiI hiJ loI loJ (xs ++ ys) := by
  intro xs
  induction xs with
  | nil =>
    intro ys loI loJ _ hys hlo1 hlo2
    exact WfBlocks_mono_lo a b hiI hiJ mI mJ loI loJ hlo1 hlo2 ys hys
  | cons blk rest ih =>
    rcases blk with ⟨ai, bj, k⟩
    intro ys loI loJ hxs hys hlo1 hlo2
    obtain ⟨w1, w2, w3, w4, w5, w6, w7⟩ := hxs
    exact ⟨w1, w2, w3, by omega, by omega, w6,
      ih ys (ai + k) (bj + k) w7 hys (by omega) (by omega)⟩

/-- The block list computed by the divide-and-conquer is well-formed on
its window. -/
theorem mblocksAux_wf (a b : List Nat) :
    ∀ (fuel alo ahi blo bhi : Nat),
    WfBlocks a b ahi bhi alo blo (mblocksAux a b fuel alo ahi blo bhi) := by
  intro fuel
  induction fuel with
  | zero => intro alo ahi blo bhi; trivial
  | succ n ih =>
    intro alo ahi blo bhi
    have hs := find_longest_match_spec a b (b2j b) (b2j_mem b) alo ahi blo bhi
    rcases hm : find_longest_match a b (b2j b) alo ahi blo bhi with ⟨i, j, k⟩
    rw [hm] at hs
    simp only [mblocksAux, hm]
    by_cases hk : k = 0
    · rw [if_pos hk]
      trivial
    · obtain ⟨hb1, hb2, hb3, hb4, hb5⟩ := hs.2 hk
      rw [if_neg hk]
      have hcenter : WfBlocks a b ahi bhi i j
          ((i, j, k) :: (if i + k < ahi ∧ j + k < bhi then
            mblocksAux a b n (i + k) ahi (j + k) bhi else [])) := by
        refine ⟨le_rfl, le_rfl, by omega, hb3, hb4, hb5, ?_⟩
        by_cases hc : i + k < ahi ∧ j + k < bhi
        · rw [if_pos hc]
          exact ih (i + k) ahi (j + k) bhi
        · rw [if_neg hc]
          trivial
      by_cases hc : alo < i ∧ blo < j
      · rw [if_pos hc]
        exact WfBlocks_append a b ahi bhi i j (by omega) (by omega) _ _
          alo blo (ih alo i blo j) hcenter (by omega) (by omega)
      · rw [if_neg hc]
        simp only [List.nil_append]
        exact WfBlocks_mono_lo a b ahi bhi i j alo blo hb1 hb2 _ hcenter

/-- Two adjacent equal runs merge into one. -/
theorem RunEq_append (a b : List Nat) (i j k1 k2 : Nat)
    (h1 : RunEq a b i j k1) (h2 : RunEq a b (i + k1) (j + k1) k2) :
    RunEq a b i j (k1 + k2) := by
  intro t ht
  rcases Nat.lt_or_ge t k1 with h | h
  · exact h1 t h
  · have e1 : i + t = i + k1 + (t - k1) := by omega
    have e2 : j + t = j + k1 + (t - k1) := by omega
    rw [e1, e2]
    exact h2 (t - k1) (by omega)

/-- The collapse loop preserves well-formedness: the pending accumulator
`(i1, j1, k1)` is itself a (possibly empty) equal run ending where the
remaining blocks begin. -/
theorem collapseBlocks_wf (a b : List Nat) (hiI hiJ : Nat) :
    ∀ (bs : List (Nat × Nat × Nat)) (i1 j1 k1 loI loJ : Nat),
    WfBlocks a b hiI hiJ (i1 + k1) (j1 + k1) bs →
    loI ≤ i1 → loJ ≤ j1 →
    RunEq a b i1 j1 k1 → i1 + k1 ≤ hiI → j1 + k1 ≤ hiJ →
    WfBlocks a b hiI hiJ loI loJ (collapseBlocks i1 j1 k1 bs) := by
  intro bs
  induction bs with
  | nil =>
    intro i1 j1 k1 loI loJ _ hlo1 hlo2 hrun hhi1 hhi2
    by_cases hk : k1 = 0
    · simp only [collapseBlocks, hk]
      rw [if_neg (by simp)]
      trivial
    · simp only [collapseBlocks, hk]
      rw [if_pos (by trivial)]
      exact ⟨hlo1, hlo2, by omega, hhi1, hhi2, hrun, trivial⟩
  | cons blk rest ih =>
    rcases blk with ⟨i2, j2, k2⟩
    intro i1 j1 k1 loI loJ hbs hlo1 hlo2 hrun hhi1 hhi2
    obtain ⟨w1, w2, w3, w4, w5, w6, w7⟩ := hbs
    simp only [collapseBlocks]
    by_cases hadj : i1 + k1 = i2 ∧ j1 + k1 = j2
    · rw [if_pos hadj]
      refine ih i1 j1 (k1 + k2) loI loJ ?_ hlo1 hlo2 ?_ (by omega) (by omega)
      · have e1 : i1 + (k1 + k2) = i2 + k2 := by omega
        have e2 : j1 + (k1 + k2) = j2 + k2 := by omega
        rw [e1, e2]
        exact w7
      · refine RunEq_append a b i1 j1 k1 k2 hrun ?_
        rw [hadj.1, hadj.2]
        exact w6
    · rw [if_neg hadj]
      have hrest : WfBlocks a b hiI hiJ (i1 + k1) (j1 + k1)
          (collapseBlocks i2 j2 k2 rest) :=
        ih i2 j2 k2 (i1 + k1) (j1 + k1) w7 w1 w2 w6 w4 w5
      by_cases hk : k1 = 0
      · simp only [hk]
        rw [if_neg (by simp)]
        simp only [List.nil_append]
        refine WfBlocks_mono_lo a b hiI hiJ (i1 + k1) (j1 + k1) loI loJ
          (by omega) (by omega) _ hrest
      · rw [if_pos (by trivial)]
        exact ⟨hlo1, hlo2, by omega, hhi1, hhi2, hrun, hrest⟩

/-- What `get_opcodes` needs from the block list: blocks are ordered,
in-bounds, name equal runs, and the list ends exactly at
`(a.length, b.length)` (the sentinel). -/
def Covers (a b : List Nat) : Nat → Nat → List (Nat × Nat × Nat) → Prop
  | i, j, [] => i = a.length ∧ j = b.length
  | i, j, (ai, bj, k) :: rest =>
    i ≤ ai ∧ j ≤ bj ∧ ai + k ≤ a.length ∧ bj + k ≤ b.length ∧
    RunEq a b ai bj k ∧ Covers a b (ai + k) (bj + k) rest

theorem wfBlocks_covers (a b : List Nat) :
    ∀ (bs : List (Nat × Nat × Nat)) (i j : Nat),
    WfBlocks a b a.length b.length i j bs →
    i ≤ a.length → j ≤ b.length →
    Covers a b i j (bs ++ [(a.length, b.length, 0)]) := by
  intro bs
  induction bs with
  | nil =>
    intro i j _ h1 h2
    exact ⟨h1, h2, by omega, by omega, fun t ht => absurd ht (by omega),
      rfl, rfl⟩
  | cons blk rest ih =>
    rcases blk with ⟨ai, bj, k⟩
    intro i j h h1 h2
    obtain ⟨w1, w2, _, w4, w5, w6, w7⟩ := h
    exact ⟨w1, w2, w4, w5, w6, ih (ai + k) (bj + k) w7 w4 w5⟩

/-- The final block list of `get_matching_blocks` covers both strings. -/
theorem get_matching_blocks_covers (a b : List Nat) :
    Covers a b 0 0 (get_matching_blocks a b) := by
  unfold get_matching_blocks
  refine wfBlocks_covers a b _ 0 0 ?_ (by omega) (by omega)
  refine collapseBlocks_wf a b a.length b.length _ 0 0 0 0 0 ?_ le_rfl le_rfl
    (fun t ht => absurd ht (by omega)) (by omega) (by omega)
  simpa using mblocksAux_wf a b (a.length + b.length + 1) 0 a.length 0 b.length

theorem slice_append (a : List Nat) (i m j : Nat) (h1 : i ≤ m) (h2 : m ≤ j) :
    slice a i m ++ slice a m j = slice a i j := by
  unfold slice
  rw [show j - i = (m - i) + (j - m) by omega, List.take_add, List.drop_drop,
    show i + (m - i) = m by omega]

theorem slice_length (a : List Nat) (i j : Nat) (hj : j ≤ a.length)
    (hij : i ≤ j) : (slice a i j).length = j - i := by
  unfold slice
  simp only [List.length_take, List.length_drop]
  omega

theorem slice_self (a : List Nat) (i : Nat) : slice a i i = [] := by
  unfold slice
  simp

theorem slice_all (a : List Nat) : slice a 0 a.length = a := by
  unfold slice
  simp

/-- An equal run gives equal slices. -/
theorem runEq_slice (a b : List Nat) (i j k : Nat) (h : RunEq a b i j k)
    (ha : i + k ≤ a.length) (hb : j + k ≤ b.length) :
    slice a i (i + k) = slice b j (j + k) := by
  apply List.ext_getElem
  · rw [slice_length a i (i + k) ha (by omega),
      slice_length b j (j + k) hb (by omega)]
    omega
  · intro t h1 h2
    rw [slice_length a i (i + k) ha (by omega)] at h1
    unfold slice
    rw [List.getElem_take, List.getElem_drop, List.getElem_take,
      List.getElem_drop,
      ← List.getD_eq_getElem a 0 (show i + t < a.length by omega),
      ← List.getD_eq_getElem b 0 (show j + t < b.length by omega)]
    exact h t (by omega)

/-- Concatenation of the texts of the segments whose kind is not
`insert`: the reconstruction of the original string. -/
def reconOrig (segs : List DiffSegment) : List Nat :=
  segs.flatMap (fun s => if s.kind = SegKind.insert then [] else s.text)

/-- Concatenation of the texts of the segments whose kind is not
`delete`: the reconstruction of the cleaned string. -/
def reconClean (segs : List DiffSegment) : List Nat :=
  segs.flatMap (fun s => if s.kind = SegKind.delete then [] else s.text)

theorem reconOrig_append (s t : List DiffSegment) :
    reconOrig (s ++ t) = reconOrig s ++ reconOrig t := by
  unfold reconOrig
  simp

theorem reconClean_append (s t : List DiffSegment) :
    reconClean (s ++ t) = reconClean s ++ reconClean t := by
  unfold reconClean
  simp

/-- Main reconstruction lemma: mapping the opcode loop over a covering
block list yields segments whose non-`insert` texts rebuild the rest of
`a` and whose non-`delete` texts rebuild the rest of `b`. -/
theorem opcodeLoop_recon (a b : List Nat) :
    ∀ (bs : List (Nat × Nat × Nat)) (i j : Nat),
    Covers a b i j bs → i ≤ a.length → j ≤ b.length →
    reconOrig ((opcodeLoop i j bs).flatMap (opcodeSegments a b)) =
      slice a i a.length ∧
    reconClean ((opcodeLoop i j bs).flatMap (opcodeSegments a b)) =
      slice b j b.length := by
  intro bs
  induction bs with
  | nil =>
    intro i j hc _ _
    obtain ⟨h1, h2⟩ := hc
    rw [h1, h2]
    simp [opcodeLoop, reconOrig, reconClean, slice_self]
  | cons blk rest ih =>
    rcases blk with ⟨ai, bj, k⟩
    intro i j hc hi hj
    obtain ⟨w1, w2, w3, w4, w5, w6⟩ := hc
    have hrest := ih (ai + k) (bj + k) w6 w3 w4
    simp only [opcodeLoop, List.flatMap_append, reconOrig_append,
      reconClean_append]
    have hgap :
        reconOrig ((if i < ai ∧ j < bj then [(OpTag.replace, i, ai, j, bj)]
          else if i < ai then [(OpTag.delete, i, ai, j, bj)]
          else if j < bj then [(OpTag.insert, i, ai, j, bj)]
          else []).flatMap (opcodeSegments a b)) = slice a i ai ∧
        reconClean ((if i < ai ∧ j < bj then [(OpTag.replace, i, ai, j, bj)]
          else if i < ai then [(OpTag.delete, i, ai, j, bj)]
          else if j < bj then [(OpTag.insert, i, ai, j, bj)]
          else []).flatMap (opcodeSegments a b)) = slice b j bj := by
      by_cases hc1 : i < ai ∧ j < bj
      · rw [if_pos hc1]
        simp [opcodeSegments, reconOrig, reconClean]
      · rw [if_neg hc1]
        by_cases hc2 : i < ai
        · rw [if_pos hc2]
          have hjb : j = bj := by omega
          rw [hjb]
          simp [opcodeSegments, reconOrig, reconClean, slice_self]
        · by_cases hc3 : j < bj
          · rw [if_neg hc2, if_pos hc3]
            have hia : i = ai := by omega
            rw [hia]
            simp [opcodeSegments, reconOrig, reconClean, slice_self]
          · rw [if_neg hc2, if_neg hc3]
            have hia : i = ai := by omega
            have hjb : j = bj := by omega
            rw [hia, hjb]
            simp [reconOrig, reconClean, slice_self]
    have heq :
        reconOrig ((if k ≠ 0 then [(OpTag.equal, ai, ai + k, bj, bj + k)]
          else []).flatMap (opcodeSegments a b)) = slice a ai (ai + k) ∧
        reconClean ((if k ≠ 0 then [(OpTag.equal, ai, ai + k, bj, bj + k)]
          else []).flatMap (opcodeSegments a b)) = slice b bj (bj + k) := by
      by_cases hk : k = 0
      · rw [if_neg (by simp [hk])]
        rw [hk]
        simp [reconOrig, reconClean, slice_self]
      · rw [if_pos hk]
        constructor
        · simp [opcodeSegments, reconOrig]
        · simp only [opcodeSegments, reconClean, List.flatMap_cons,
            List.flatMap_nil]
          rw [runEq_slice a b ai bj k w5 w3 w4]
          simp
    constructor
    · rw [hgap.1, heq.1, hrest.1, List.append_assoc,
        slice_append a ai (ai + k) a.length (by omega) w3,
        slice_append a i ai a.length w1 (by omega)]
    · rw [hgap.2, heq.2, hrest.2, List.append_assoc,
        slice_append b bj (bj + k) b.length (by omega) w4,
        slice_append b j bj b.length w2 (by omega)]

/-- Reconstruction holds for the diff of any pair of strings. -/
theorem diff_segments_recon (a b : List Nat) :
    reconOrig (diff_segments a b) = a ∧ reconClean (diff_segments a b) = b := by
  have h := opcodeLoop_recon a b (get_matching_blocks a b) 0 0
    (get_matching_blocks_covers a b) (by omega) (by omega)
  rw [slice_all a, slice_all b] at h
  exact h

end AIStripper

namespace AIStripper

/-- C1: whenever the endpoint produces a diff (i.e. the cleaned text
differs from the input), concatenating the texts of the `equal` and
`delete` segments rebuilds the original string, and concatenating the
texts of the `equal` and `insert` segments rebuilds the cleaned string. -/
theorem C1_reconstruction (s : List Nat) (segs : List DiffSegment)
    (h : (strip_content_endpoint s).2 = some segs) :
    reconOrig segs = s ∧ reconClean segs = strip_non_human_chars s := by
  unfold strip_content_endpoint at h
  split at h
  · simp at h
  · have hinj : diff_segments s (strip_non_human_chars s) = segs :=
      Option.some_injective _ h
    rw [← hinj]
    exact diff_segments_recon s (strip_non_human_chars s)

/-- Witness for C1 at the concrete input `"—"` (an em dash, code point
`U+2014`, which normalizes to `"-"`). -/
theorem C1_reconstruction_witness :
    (strip_content_endpoint [0x2014]).2 =
      some [⟨SegKind.delete, [0x2014]⟩, ⟨SegKind.insert, [45]⟩] ∧
    reconOrig [⟨SegKind.delete, [0x2014]⟩, ⟨SegKind.insert, [45]⟩] =
      [0x2014] ∧
    reconClean [⟨SegKind.delete, [0x2014]⟩, ⟨SegKind.insert, [45]⟩] =
      strip_non_human_chars [0x2014] :=
  ⟨by decide,
   (C1_reconstruction [0x2014] _ (by decide)).1,
   (C1_reconstruction [0x2014] _ (by decide)).2⟩

/-- C2: the endpoint's diff is `None` exactly when normalization leaves
the input unchanged, and whenever the input changes the diff is a
nonempty list of segments. -/
theorem C2_diff_none_iff (s : List Nat) :
    ((strip_content_endpoint s).2 = none ↔ strip_non_human_chars s = s) ∧
    (strip_non_human_chars s ≠ s →
      ∃ segs, (strip_content_endpoint s).2 = some segs ∧ segs ≠ []) := by
  constructor
  · unfold strip_content_endpoint
    by_cases h : s = strip_non_human_chars s
    · rw [if_pos h]
      simp [h.symm]
    · rw [if_neg h]
      simp
      exact fun hh => h hh.symm
  · intro hne
    refine ⟨diff_segments s (strip_non_human_chars s), ?_, ?_⟩
    · unfold strip_content_endpoint
      rw [if_neg (fun hh => hne hh.symm)]
    · intro hempty
      have h := diff_segments_recon s (strip_non_human_chars s)
      rw [hempty] at h
      simp only [reconOrig, reconClean, List.flatMap_nil] at h
      exact hne (h.2.symm.trans h.1)

/-- Witness for C2 at the inputs `"a"` (unchanged) and `"—"` (changed). -/
theorem C2_diff_none_iff_witness :
    ((strip_content_endpoint [97]).2 = none) ∧
    (strip_non_human_chars [0x2014] ≠ [0x2014]) ∧
    (∃ segs, (strip_content_endpoint [0x2014]).2 = some segs ∧ segs ≠ []) :=
  ⟨(C2_diff_none_iff [97]).1.2 (by decide),
   by decide,
   (C2_diff_none_iff [0x2014]).2 (by decide)⟩

/-! ## Per-character facts about the rule cascade -/

theorem space_map_none (c : Nat)
    (h : c ≠ 0xA0 ∧ c ≠ 0x1680 ∧ ¬(0x2000 ≤ c ∧ c ≤ 0x200A) ∧ c ≠ 0x202F ∧
      c ≠ 0x205F ∧ c ≠ 0x3000) : space_map c = none := by
  unfold space_map
  split
  · rename_i hc
    omega
  · rfl

theorem dash_map_none (c : Nat) (h : ¬(0x2012 ≤ c ∧ c ≤ 0x2015) ∧ c ≠ 0x2212) :
    dash_map c = none := by
  unfold dash_map
  split
  · rename_i hc
    omega
  · rfl

theorem quote_map_none (c : Nat)
    (h : ¬(0x2018 ≤ c ∧ c ≤ 0x201F) ∧ ¬(0x2032 ≤ c ∧ c ≤ 0x2036) ∧
      c ≠ 0xAB ∧ c ≠ 0xBB) : quote_map c = none := by
  unfold quote_map
  split
  · rename_i hc
    omega
  · split
    · rename_i hc
      omega
    · split
      · rename_i hc
        omega
      · rfl

theorem misc_map_none (c : Nat) (h : c ≠ 0x2026 ∧ c ≠ 0x2022 ∧ c ≠ 0xB7) :
    misc_map c = none := by
  unfold misc_map
  split
  · rename_i hc
    omega
  · split
    · rename_i hc
      omega
    · split
      · rename_i hc
        omega
      · rfl

theorem hidden_false (c : Nat)
    (h : c ≠ 0xAD ∧ c ≠ 0x180E ∧ ¬(0x200B ≤ c ∧ c ≤ 0x200F) ∧
      ¬(0x202A ≤ c ∧ c ≤ 0x202E) ∧ ¬(0x2060 ≤ c ∧ c ≤ 0x206F) ∧
      c ≠ 0xFEFF ∧ ¬(0xFE00 ≤ c ∧ c ≤ 0xFE0F)) :
    hidden_chars_to_remove c = false := by
  unfold hidden_chars_to_remove
  simp only [decide_eq_false_iff_not]
  omega

/-- ASCII code points fall through every table and are passed through
unchanged. -/
theorem processChar_ascii (c : Nat) (h : c ≤ 127) : processChar c = [c] := by
  have h1 : hidden_chars_to_remove c = false := hidden_false c (by omega)
  have h2 : space_map c = none := space_map_none c (by omega)
  have h3 : dash_map c = none := dash_map_none c (by omega)
  have h4 : quote_map c = none := quote_map_none c (by omega)
  have h5 : misc_map c = none := misc_map_none c (by omega)
  have h6 : ¬(0xFF01 ≤ c ∧ c ≤ 0xFF5E) := by omega
  simp [processChar, h1, h2, h3, h4, h5, h6, h]

/-- Emoji code points fall through every table, fail the ASCII test and
are passed through unchanged by the emoji rule. -/
theorem processChar_emoji (c : Nat) (h : is_emoji c = true) :
    processChar c = [c] := by
  have hr : (0x1F600 ≤ c ∧ c ≤ 0x1F64F) ∨ (0x1F300 ≤ c ∧ c ≤ 0x1F5FF) ∨
      (0x1F680 ≤ c ∧ c ≤ 0x1F6FF) ∨ (0x1F900 ≤ c ∧ c ≤ 0x1F9FF) ∨
      (0x2700 ≤ c ∧ c ≤ 0x27BF) ∨ (0x1FA70 ≤ c ∧ c ≤ 0x1FAFF) ∨
      (0x1F1E6 ≤ c ∧ c ≤ 0x1F1FF) ∨ (0x2600 ≤ c ∧ c ≤ 0x26FF) := by
    simpa [is_emoji] using h
  have h1 : hidden_chars_to_remove c = false := hidden_false c (by omega)
  have h2 : space_map c = none := space_map_none c (by omega)
  have h3 : dash_map c = none := dash_map_none c (by omega)
  have h4 : quote_map c = none := quote_map_none c (by omega)
  have h5 : misc_map c = none := misc_map_none c (by omega)
  have h6 : ¬(0xFF01 ≤ c ∧ c ≤ 0xFF5E) := by omega
  have h7 : ¬(c ≤ 127) := by omega
  simp [processChar, h1, h2, h3, h4, h5, h6, h7, h]

/-- Every code point the cascade emits is ASCII or lies in one of the
eight emoji ranges. -/
theorem processChar_output (c d : Nat) (h : d ∈ processChar c) :
    d ≤ 127 ∨ is_emoji d = true := by
  unfold processChar at h
  split at h
  · simp at h
  · split at h
    · rename_i r heq
      unfold space_map at heq
      split at heq
      · simp at heq
        rw [← heq] at h
        left
        simp at h
        omega
      · simp at heq
    · split at h
      · rename_i r heq
        unfold dash_map at heq
        split at heq
        · simp at heq
          subst heq
          left
          simp at h
          omega
        · simp at heq
      · split at h
        · rename_i r heq
          unfold quote_map at heq
          split at heq
          · simp at heq
            subst heq
            left
            simp at h
            omega
          · split at heq
            · simp at heq
              subst heq
              left
              simp at h
              omega
            · split at heq
              · simp at heq
                subst heq
                simp at h
              · simp at heq
        · split at h
          · rename_i r heq
            unfold misc_map at heq
            split at heq
            · simp at heq
              subst heq
              left
              simp at h
              omega
            · split at heq
              · simp at heq
                subst heq
                left
                simp at h
                omega
              · split at heq
                · simp at heq
                  rw [← heq] at h
                  left
                  simp at h
                  omega
                · simp at heq
          · split at h
            · rename_i hc
              left
              simp at h
              omega
            · split at h
              · rename_i hc
                left
                simp at h
                omega
              · split at h
                · rename_i hc
                  right
                  simp at h
                  rw [h]
                  exact hc
                · simp at h

/-- A code point the cascade emits is left unchanged when fed back in. -/
theorem processChar_fix (c d : Nat) (h : d ∈ processChar c) :
    processChar d = [d] := by
  rcases processChar_output c d h with h1 | h1
  · exact processChar_ascii d h1
  · exact processChar_emoji d h1

theorem flatMap_processChar_id (l : List Nat)
    (h : ∀ d ∈ l, processChar d = [d]) : l.flatMap processChar = l := by
  induction l with
  | nil => rfl
  | cons c rest ih =>
    rw [List.flatMap_cons, h c (List.mem_cons_self _ _),
      ih fun d hd => h d (List.mem_cons_of_mem _ hd)]
    rfl

end AIStripper

namespace AIStripper

/-- C3: `strip_non_human_chars` is idempotent. -/
theorem C3_idempotent (s : List Nat) :
    strip_non_human_chars (strip_non_human_chars s) = strip_non_human_chars s := by
  unfold strip_non_human_chars
  apply flatMap_processChar_id
  intro d hd
  rw [List.mem_flatMap] at hd
  obtain ⟨c, -, hdc⟩ := hd
  exact processChar_fix c d hdc

/-- C4: strings made of ASCII code points are fixed by
`strip_non_human_chars`. -/
theorem C4_ascii_fixpoint (s : List Nat) (h : ∀ c ∈ s, c ≤ 127) :
    strip_non_human_chars s = s :=
  flatMap_processChar_id s fun d hd => processChar_ascii d (h d hd)

/-- Witness for C4 at the concrete input `"Hi!"`. -/
theorem C4_ascii_fixpoint_witness :
    (∀ c ∈ [72, 105, 33], c ≤ 127) ∧
      strip_non_human_chars [72, 105, 33] = [72, 105, 33] :=
  ⟨by decide, C4_ascii_fixpoint [72, 105, 33] (by decide)⟩

/-- C5: normalization is total and deterministic: running the fallible
embedding (where the guarded `_quote_map[char_val]` dict access is the
sole fallible operation) on any code-point sequence, including lone
surrogates, returns `ok` with the value of the pure function — never an
exception. -/
theorem C5_total (s : List Nat) :
    strip_non_human_charsE s = Except.ok (strip_non_human_chars s) := by
  have hc : ∀ c, processCharE c = Except.ok (processChar c) := by
    intro c
    unfold processCharE processChar
    by_cases hh : hidden_chars_to_remove c
    · simp [hh]
    · simp only [hh, Bool.false_eq_true, if_false]
      rcases hs : space_map c with - | r
      all_goals simp only [hs]
      rcases hd : dash_map c with - | r
      all_goals simp only [hd]
      rcases hq : quote_map c with - | r
      all_goals simp only [hq, Option.isSome_none, Option.isSome_some,
        Bool.false_eq_true, if_false, if_true]
      rcases hm : misc_map c with - | r
      all_goals simp only [hm]
      split
      · rfl
      · split
        · rfl
        · split
          · rfl
          · rfl
  induction s with
  | nil => rfl
  | cons c rest ih =>
    unfold strip_non_human_charsE
    rw [hc c, ih]
    rfl

/-- C10: every code point of a normalized string is ASCII or lies in one
of the eight emoji pass-through ranges. -/
theorem C10_output_alphabet (s : List Nat) (d : Nat)
    (h : d ∈ strip_non_human_chars s) : d ≤ 127 ∨ is_emoji d = true := by
  unfold strip_non_human_chars at h
  rw [List.mem_flatMap] at h
  obtain ⟨c, -, hdc⟩ := h
  exact processChar_output c d hdc

/-- Witness for C10 at a concrete input (letter, euro sign, emoji). -/
theorem C10_output_alphabet_witness :
    (97 ∈ strip_non_human_chars [97, 0x20AC, 0x1F60A]) ∧
    (97 ≤ 127 ∨ is_emoji 97 = true) :=
  ⟨by decide, C10_output_alphabet [97, 0x20AC, 0x1F60A] 97 (by decide)⟩

/-- Membership predicates of the eight rule families of the cascade, as
tested in order by `strip_non_human_chars`: rule 1 set, rules 2-5 dict
keys, the fullwidth range, the ASCII range and the emoji ranges. -/
def ruleMatchCount (c : Nat) : Nat :=
  (if hidden_chars_to_remove c then 1 else 0) +
  (if (space_map c).isSome then 1 else 0) +
  (if (dash_map c).isSome then 1 else 0) +
  (if (quote_map c).isSome then 1 else 0) +
  (if (misc_map c).isSome then 1 else 0) +
  (if 0xFF01 ≤ c ∧ c ≤ 0xFF5E then 1 else 0) +
  (if c ≤ 127 then 1 else 0) +
  (if is_emoji c then 1 else 0)

/-- C7: over the whole Unicode range, the eight membership tests of the
cascade are pairwise disjoint — every code point matches at most one —
and a code point matching none of them is dropped by the final fallback
(so with the fallback counted as the ninth rule, every code point matches
exactly one rule). -/
theorem hidden_true_keys (c : Nat) (h : hidden_chars_to_remove c = true) :
    c = 0xAD ∨ c = 0x180E ∨ (0x200B ≤ c ∧ c ≤ 0x200F) ∨
    (0x202A ≤ c ∧ c ≤ 0x202E) ∨ (0x2060 ≤ c ∧ c ≤ 0x206F) ∨
    c = 0xFEFF ∨ (0xFE00 ≤ c ∧ c ≤ 0xFE0F) := by
  unfold hidden_chars_to_remove at h
  simp only [decide_eq_true_eq] at h
  omega

theorem space_map_isSome_keys (c : Nat) (h : (space_map c).isSome = true) :
    c = 0xA0 ∨ c = 0x1680 ∨ (0x2000 ≤ c ∧ c ≤ 0x200A) ∨ c = 0x202F ∨
    c = 0x205F ∨ c = 0x3000 := by
  unfold space_map at h
  split at h
  · rename_i hc
    omega
  · simp at h

theorem dash_map_isSome_keys (c : Nat) (h : (dash_map c).isSome = true) :
    (0x2012 ≤ c ∧ c ≤ 0x2015) ∨ c = 0x2212 := by
  unfold dash_map at h
  split at h
  · rename_i hc
    omega
  · simp at h

theorem quote_map_isSome_keys (c : Nat) (h : (quote_map c).isSome = true) :
    (0x2018 ≤ c ∧ c ≤ 0x201F) ∨ (0x2032 ≤ c ∧ c ≤ 0x2036) ∨
    c = 0xAB ∨ c = 0xBB := by
  unfold quote_map at h
  split at h
  · rename_i hc
    omega
  · split at h
    · rename_i hc
      omega
    · split at h
      · rename_i hc
        omega
      · simp at h

theorem misc_map_isSome_keys (c : Nat) (h : (misc_map c).isSome = true) :
    c = 0x2026 ∨ c = 0x2022 ∨ c = 0xB7 := by
  unfold misc_map at h
  split at h
  · rename_i hc
    omega
  · split at h
    · rename_i hc
      omega
    · split at h
      · rename_i hc
        omega
      · simp at h

theorem is_emoji_true_keys (c : Nat) (h : is_emoji c = true) :
    (0x1F600 ≤ c ∧ c ≤ 0x1F64F) ∨ (0x1F300 ≤ c ∧ c ≤ 0x1F5FF) ∨
    (0x1F680 ≤ c ∧ c ≤ 0x1F6FF) ∨ (0x1F900 ≤ c ∧ c ≤ 0x1F9FF) ∨
    (0x2700 ≤ c ∧ c ≤ 0x27BF) ∨ (0x1FA70 ≤ c ∧ c ≤ 0x1FAFF) ∨
    (0x1F1E6 ≤ c ∧ c ≤ 0x1F1FF) ∨ (0x2600 ≤ c ∧ c ≤ 0x26FF) := by
  unfold is_emoji at h
  simp only [decide_eq_true_eq] at h
  omega

theorem is_emoji_false (c : Nat)
    (h : ¬((0x1F600 ≤ c ∧ c ≤ 0x1F64F) ∨ (0x1F300 ≤ c ∧ c ≤ 0x1F5FF) ∨
      (0x1F680 ≤ c ∧ c ≤ 0x1F6FF) ∨ (0x1F900 ≤ c ∧ c ≤ 0x1F9FF) ∨
      (0x2700 ≤ c ∧ c ≤ 0x27BF) ∨ (0x1FA70 ≤ c ∧ c ≤ 0x1FAFF) ∨
      (0x1F1E6 ≤ c ∧ c ≤ 0x1F1FF) ∨ (0x2600 ≤ c ∧ c ≤ 0x26FF))) :
    is_emoji c = false := by
  unfold is_emoji
  simp only [decide_eq_false_iff_not]
  omega

/-- C7: over the whole Unicode range, the eight membership tests of the
cascade are pairwise disjoint — every code point matches at most one —
and a code point matching none of them is dropped by the final fallback
(so with the fallback counted as the ninth rule, every code point matches
exactly one rule). -/
theorem C7_rule_disjointness (c : Nat) (hc : c ≤ 0x10FFFF) :
    ruleMatchCount c ≤ 1 ∧ (ruleMatchCount c = 0 → processChar c = []) := by
  constructor
  · by_cases h1 : hidden_chars_to_remove c
    · have hp := hidden_true_keys c h1
      have s2 : space_map c = none := space_map_none c (by omega)
      have s3 : dash_map c = none := dash_map_none c (by omega)
      have s4 : quote_map c = none := quote_map_none c (by omega)
      have s5 : misc_map c = none := misc_map_none c (by omega)
      have s6 : ¬(0xFF01 ≤ c ∧ c ≤ 0xFF5E) := by omega
      have s7 : ¬(c ≤ 127) := by omega
      have s8 : is_emoji c = false := is_emoji_false c (by omega)
      simp [ruleMatchCount, h1, s2, s3, s4, s5, s6, s7, s8]
    · by_cases h2 : (space_map c).isSome
      · have hp := space_map_isSome_keys c h2
        have s3 : dash_map c = none := dash_map_none c (by omega)
        have s4 : quote_map c = none := quote_map_none c (by omega)
        have s5 : misc_map c = none := misc_map_none c (by omega)
        have s6 : ¬(0xFF01 ≤ c ∧ c ≤ 0xFF5E) := by omega
        have s7 : ¬(c ≤ 127) := by omega
        have s8 : is_emoji c = false := is_emoji_false c (by omega)
        simp [ruleMatchCount, h1, h2, s3, s4, s5, s6, s7, s8]
      · by_cases h3 : (dash_map c).isSome
        · have hp := dash_map_isSome_keys c h3
          have s4 : quote_map c = none := quote_map_none c (by omega)
          have s5 : misc_map c = none := misc_map_none c (by omega)
          have s6 : ¬(0xFF01 ≤ c ∧ c ≤ 0xFF5E) := by omega
          have s7 : ¬(c ≤ 127) := by omega
          have s8 : is_emoji c = false := is_emoji_false c (by omega)
          simp [ruleMatchCount, h1, h2, h3, s4, s5, s6, s7, s8]
        · by_cases h4 : (quote_map c).isSome
          · have hp := quote_map_isSome_keys c h4
            have s5 : misc_map c = none := misc_map_none c (by omega)
            have s6 : ¬(0xFF01 ≤ c ∧ c ≤ 0xFF5E) := by omega
            have s7 : ¬(c ≤ 127) := by omega
            have s8 : is_emoji c = false := is_emoji_false c (by omega)
            simp [ruleMatchCount, h1, h2, h3, h4, s5, s6, s7, s8]
          · by_cases h5 : (misc_map c).isSome
            · have hp := misc_map_isSome_keys c h5
              have s6 : ¬(0xFF01 ≤ c ∧ c ≤ 0xFF5E) := by omega
              have s7 : ¬(c ≤ 127) := by omega
              have s8 : is_emoji c = false := is_emoji_false c (by omega)
              simp [ruleMatchCount, h1, h2, h3, h4, h5, s6, s7, s8]
            · by_cases h6 : 0xFF01 ≤ c ∧ c ≤ 0xFF5E
              · have s7 : ¬(c ≤ 127) := by omega
                have s8 : is_emoji c = false := is_emoji_false c (by omega)
                simp [ruleMatchCount, h1, h2, h3, h4, h5, h6, s7, s8]
              · by_cases h7 : c ≤ 127
                · have s8 : is_emoji c = false := is_emoji_false c (by omega)
                  simp [ruleMatchCount, h1, h2, h3, h4, h5, h6, h7, s8]
                · by_cases h8 : is_emoji c
                  · simp [ruleMatchCount, h1, h2, h3, h4, h5, h6, h7, h8]
                  · simp [ruleMatchCount, h1, h2, h3, h4, h5, h6, h7, h8]
  · intro h0
    have h1 : hidden_chars_to_remove c = false := by
      by_cases hh : hidden_chars_to_remove c
      · exfalso
        unfold ruleMatchCount at h0
        rw [if_pos hh] at h0
        omega
      · simpa using hh
    have h2 : space_map c = none := by
      rcases hs : space_map c with - | r
      · rfl
      · exfalso
        unfold ruleMatchCount at h0
        rw [hs] at h0
        simp only [Option.isSome_some, if_true] at h0
        omega
    have h3 : dash_map c = none := by
      rcases hs : dash_map c with - | r
      · rfl
      · exfalso
        unfold ruleMatchCount at h0
        rw [hs] at h0
        simp only [Option.isSome_some, if_true] at h0
        omega
    have h4 : quote_map c = none := by
      rcases hs : quote_map c with - | r
      · rfl
      · exfalso
        unfold ruleMatchCount at h0
        rw [hs] at h0
        simp only [Option.isSome_some, if_true] at h0
        omega
    have h5 : misc_map c = none := by
      rcases hs : misc_map c with - | r
      · rfl
      · exfalso
        unfold ruleMatchCount at h0
        rw [hs] at h0
        simp only [Option.isSome_some, if_true] at h0
        omega
    have h6 : ¬(0xFF01 ≤ c ∧ c ≤ 0xFF5E) := by
      intro hh
      unfold ruleMatchCount at h0
      rw [if_pos hh] at h0
      omega
    have h7 : ¬(c ≤ 127) := by
      intro hh
      unfold ruleMatchCount at h0
      rw [if_pos hh] at h0
      omega
    have h8 : is_emoji c = false := by
      by_cases hh : is_emoji c
      · exfalso
        unfold ruleMatchCount at h0
        rw [if_pos hh] at h0
        omega
      · simpa using hh
    simp [processChar, h1, h2, h3, h4, h5, h6, h7, h8]

/-- Witness for C7 at the code point `U+20AC` (euro sign: matched by no
rule, dropped by the fallback). -/
theorem C7_rule_disjointness_witness :
    (0x20AC ≤ 0x10FFFF) ∧ ruleMatchCount 0x20AC ≤ 1 ∧
    (ruleMatchCount 0x20AC = 0 ∧ processChar 0x20AC = []) :=
  ⟨by decide, (C7_rule_disjointness 0x20AC (by decide)).1,
   by decide, (C7_rule_disjointness 0x20AC (by decide)).2 (by decide)⟩

/-- C8: the quote/apostrophe table maps the six single-style marks to
`U+0027`, the eight double-style marks (including the guillemets) to
`U+0022`, and the triple prime `U+2034` to the empty string; on the
concrete input `"Triple prime X test"` with `X = U+2034` the normalizer
therefore leaves two consecutive spaces. -/
theorem C8_quote_map :
    quote_map 0x2018 = some [39] ∧ quote_map 0x2019 = some [39] ∧
    quote_map 0x201A = some [39] ∧ quote_map 0x201B = some [39] ∧
    quote_map 0x2032 = some [39] ∧ quote_map 0x2035 = some [39] ∧
    quote_map 0x201C = some [34] ∧ quote_map 0x201D = some [34] ∧
    quote_map 0x201E = some [34] ∧ quote_map 0x201F = some [34] ∧
    quote_map 0x2033 = some [34] ∧ quote_map 0x2036 = some [34] ∧
    quote_map 0xAB = some [34] ∧ quote_map 0xBB = some [34] ∧
    quote_map 0x2034 = some [] ∧
    strip_non_human_chars
      [84, 114, 105, 112, 108, 101, 32, 112, 114, 105, 109, 101, 32,
       0x2034, 32, 116, 101, 115, 116] =
      [84, 114, 105, 112, 108, 101, 32, 112, 114, 105, 109, 101, 32,
       32, 116, 101, 115, 116] := by
  refine ⟨rfl, rfl, rfl, rfl, rfl, rfl, rfl, rfl, rfl, rfl, rfl, rfl, rfl,
    rfl, rfl, ?_⟩
  decide


/-! ## C6: edit-distance comparison -/

/-- Helper for `indelDist`: `indelAux x a' go b = indelDist (x :: a') b`
where `go = indelDist a'`; this phrasing makes both recursions
structural. -/
def indelAux (x : Nat) (a' : List Nat) (go : List Nat → Nat) :
    List Nat → Nat
  | [] => a'.length + 1
  | y :: b' => if x = y then go b'
      else 1 + min (go (y :: b')) (indelAux x a' go b')

/-- Spec-side definition for C6: the minimum number of single-code-point
insertions plus deletions turning the first sequence into the second
(the textbook recurrence: equal heads are free, otherwise one plus the
cheaper of deleting the first head or inserting the second). -/
def indelDist : List Nat → List Nat → Nat
  | [], b => b.length
  | x :: a', b => indelAux x a' (indelDist a') b

theorem indelDist_nil_right (a : List Nat) : indelDist a [] = a.length := by
  cases a <;> rfl

theorem indelDist_cons_cons (x y : Nat) (a b : List Nat) :
    indelDist (x :: a) (y :: b) =
    if x = y then indelDist a b
    else 1 + min (indelDist a (y :: b)) (indelDist (x :: a) b) := rfl

/-- The four one-step bounds of the insert/delete distance, proved
together by strong induction on the combined length. -/
theorem indelDist_steps :
    ∀ (n : Nat) (a b : List Nat), a.length + b.length ≤ n →
    (∀ c, indelDist (c :: a) b ≤ 1 + indelDist a b) ∧
    (∀ y, indelDist a (y :: b) ≤ 1 + indelDist a b) ∧
    (∀ c, indelDist a b ≤ 1 + indelDist (c :: a) b) ∧
    (∀ y, indelDist a b ≤ 1 + indelDist a (y :: b)) := by
  intro n
  induction n with
  | zero =>
    intro a b h
    obtain ⟨rfl, rfl⟩ : a = [] ∧ b = [] := by
      constructor
      · cases a
        · rfl
        · simp at h
      · cases b
        · rfl
        · simp at h
    refine ⟨?_, ?_, ?_, ?_⟩ <;>
      intro z <;> simp [indelDist_nil_right, indelDist, indelAux]
  | succ n ih =>
    intro a b h
    refine ⟨?_, ?_, ?_, ?_⟩
    · -- deleting an extra head costs at most one
      intro c
      cases b with
      | nil =>
        rw [indelDist_nil_right, indelDist_nil_right]
        simp only [List.length_cons]
        omega
      | cons y b' =>
        rw [indelDist_cons_cons]
        by_cases hxy : c = y
        · rw [if_pos hxy]
          have := (ih a b' (by simp at h ⊢; omega)).2.2.2 y
          omega
        · rw [if_neg hxy]
          omega
    · -- inserting an extra head costs at most one
      intro y
      cases a with
      | nil =>
        simp only [indelDist, List.length_cons]
        omega
      | cons x a' =>
        rw [indelDist_cons_cons]
        by_cases hxy : x = y
        · rw [if_pos hxy]
          have := (ih a' b (by simp at h ⊢; omega)).2.2.1 x
          omega
        · rw [if_neg hxy]
          omega
    · -- removing a head of the first argument costs at most one
      intro c
      cases b with
      | nil =>
        rw [indelDist_nil_right, indelDist_nil_right]
        simp only [List.length_cons]
        omega
      | cons y b' =>
        rw [indelDist_cons_cons]
        by_cases hxy : c = y
        · rw [if_pos hxy]
          have := (ih a b' (by simp at h ⊢; omega)).2.1 y
          omega
        · rw [if_neg hxy]
          have h1 := (ih a b' (by simp at h ⊢; omega)).2.1 y
          have h2 := (ih a b' (by simp at h ⊢; omega)).2.2.1 c
          omega
    · -- removing a head of the second argument costs at most one
      intro y
      cases a with
      | nil =>
        simp only [indelDist, List.length_cons]
        omega
      | cons x a' =>
        rw [indelDist_cons_cons]
        by_cases hxy : x = y
        · rw [if_pos hxy]
          have := (ih a' b (by simp at h ⊢; omega)).1 x
          omega
        · rw [if_neg hxy]
          have h1 := (ih a' b (by simp at h ⊢; omega)).1 x
          have h2 := (ih a' b (by simp at h ⊢; omega)).2.2.2 y
          omega

theorem indelDist_delete_prefix (t a b : List Nat) :
    indelDist (t ++ a) b ≤ t.length + indelDist a b := by
  induction t with
  | nil => simp
  | cons c t' ihp =>
    have h1 := (indelDist_steps ((t' ++ a).length + b.length) (t' ++ a) b
      le_rfl).1 c
    simp only [List.cons_append, List.length_cons]
    omega

theorem indelDist_insert_prefix (t a b : List Nat) :
    indelDist a (t ++ b) ≤ t.length + indelDist a b := by
  induction t with
  | nil => simp
  | cons y t' ihp =>
    have h1 := (indelDist_steps (a.length + (t' ++ b).length) a (t' ++ b)
      le_rfl).2.1 y
    simp only [List.cons_append, List.length_cons]
    omega

theorem indelDist_common_prefix (t a b : List Nat) :
    indelDist (t ++ a) (t ++ b) ≤ indelDist a b := by
  induction t with
  | nil => simp
  | cons c t' ihp =>
    simp only [List.cons_append]
    rw [indelDist_cons_cons, if_pos rfl]
    exact ihp

/-- The number of code points in the `delete` and `insert` segments of a
diff. -/
def delInsCount (segs : List DiffSegment) : Nat :=
  ((segs.filter (fun s => s.kind ≠ SegKind.equal)).map
    (fun s => s.text.length)).sum

/-- Any segment list that reconstructs both strings spends at least the
minimum insert/delete distance on its non-`equal` segments. -/
theorem indelDist_le_delInsCount :
    ∀ (segs : List DiffSegment) (a b : List Nat),
    reconOrig segs = a → reconClean segs = b →
    indelDist a b ≤ delInsCount segs := by
  intro segs
  induction segs with
  | nil =>
    intro a b h1 h2
    simp only [reconOrig, reconClean, List.flatMap_nil] at h1 h2
    rw [← h1, ← h2]
    simp [delInsCount, indelDist]
  | cons s rest ih =>
    intro a b h1 h2
    rcases s with ⟨kind, text⟩
    cases kind
    case equal =>
      simp only [reconOrig, reconClean, List.flatMap_cons] at h1 h2
      simp only [reduceCtorEq, if_false] at h1 h2
      rw [← h1, ← h2]
      have hc := indelDist_common_prefix text
        (rest.flatMap (fun s => if s.kind = SegKind.insert then [] else s.text))
        (rest.flatMap (fun s => if s.kind = SegKind.delete then [] else s.text))
      have hr := ih _ _ rfl rfl
      have hcount : delInsCount (⟨SegKind.equal, text⟩ :: rest) =
          delInsCount rest := by
        simp [delInsCount]
      rw [hcount]
      exact le_trans hc hr
    case insert =>
      simp only [reconOrig, reconClean, List.flatMap_cons] at h1 h2
      simp only [reduceCtorEq, if_true, if_false] at h1 h2
      rw [← h1, ← h2]
      have hc := indelDist_insert_prefix text
        (rest.flatMap (fun s => if s.kind = SegKind.insert then [] else s.text))
        (rest.flatMap (fun s => if s.kind = SegKind.delete then [] else s.text))
      have hr := ih _ _ rfl rfl
      simp only [reconOrig, reconClean] at hr
      have hcount : delInsCount (⟨SegKind.insert, text⟩ :: rest) =
          text.length + delInsCount rest := by
        simp [delInsCount]
      rw [hcount]
      simp only [List.nil_append]
      omega
    case delete =>
      simp only [reconOrig, reconClean, List.flatMap_cons] at h1 h2
      simp only [reduceCtorEq, if_true, if_false] at h1 h2
      rw [← h1, ← h2]
      have hc := indelDist_delete_prefix text
        (rest.flatMap (fun s => if s.kind = SegKind.insert then [] else s.text))
        (rest.flatMap (fun s => if s.kind = SegKind.delete then [] else s.text))
      have hr := ih _ _ rfl rfl
      simp only [reconOrig, reconClean] at hr
      have hcount : delInsCount (⟨SegKind.delete, text⟩ :: rest) =
          text.length + delInsCount rest := by
        simp [delInsCount]
      rw [hcount]
      simp only [List.nil_append]
      omega


/-- C6 counterexample: on the input `"a€aa"` (the euro sign `U+20AC` is
dropped, so the cleaned text is `"aaa"`), the endpoint's diff spends 3
code points on delete/insert segments while the minimum edit distance is
1 — the greedy `SequenceMatcher` anchors on the trailing `"aa"` instead
of deleting just the euro sign.  So the diff does not correspond to a
minimal-edit-distance alignment. -/
theorem C6_counterexample :
    strip_non_human_chars [97, 0x20AC, 97, 97] = [97, 97, 97] ∧
    delInsCount (diff_segments [97, 0x20AC, 97, 97] [97, 97, 97]) = 3 ∧
    indelDist [97, 0x20AC, 97, 97] [97, 97, 97] = 1 ∧
    delInsCount (diff_segments [97, 0x20AC, 97, 97] [97, 97, 97]) ≠
      indelDist [97, 0x20AC, 97, 97] [97, 97, 97] := by
  decide

/-- C6 as amended: the number of code points in the delete plus insert
segments is an upper approximation — it is always at least the minimum
edit distance between the input and the cleaned text, but not always
equal to it. -/
theorem C6_amended_lower_bound (s : List Nat)
    (h : strip_non_human_chars s ≠ s) :
    indelDist s (strip_non_human_chars s) ≤
      delInsCount (diff_segments s (strip_non_human_chars s)) := by
  have hr := diff_segments_recon s (strip_non_human_chars s)
  exact indelDist_le_delInsCount _ _ _ hr.1 hr.2

/-- Witness for the amended C6 at the counterexample input. -/
theorem C6_amended_lower_bound_witness :
    strip_non_human_chars [97, 0x20AC, 97, 97] ≠ [97, 0x20AC, 97, 97] ∧
    indelDist [97, 0x20AC, 97, 97]
        (strip_non_human_chars [97, 0x20AC, 97, 97]) ≤
      delInsCount (diff_segments [97, 0x20AC, 97, 97]
        (strip_non_human_chars [97, 0x20AC, 97, 97])) :=
  ⟨by decide, C6_amended_lower_bound [97, 0x20AC, 97, 97] (by decide)⟩

/-! ## C9: ordering of substitution segments -/

/-- Every block the collapse loop emits has nonzero size. -/
theorem collapseBlocks_nonzero :
    ∀ (bs : List (Nat × Nat × Nat)) (i1 j1 k1 : Nat)
      (blk : Nat × Nat × Nat), blk ∈ collapseBlocks i1 j1 k1 bs →
      blk.2.2 ≠ 0 := by
  intro bs
  induction bs with
  | nil =>
    intro i1 j1 k1 blk h
    unfold collapseBlocks at h
    split at h
    · rename_i hk
      simp only [List.mem_singleton] at h
      rw [h]
      simpa using hk
    · simp at h
  | cons b2 rest ih =>
    rcases b2 with ⟨i2, j2, k2⟩
    intro i1 j1 k1 blk h
    unfold collapseBlocks at h
    split at h
    · exact ih _ _ _ _ h
    · rw [List.mem_append] at h
      rcases h with h | h
      · split at h
        · rename_i hk
          simp only [List.mem_singleton] at h
          rw [h]
          simpa using hk
        · simp at h
      · exact ih _ _ _ _ h

/-- The adjacency the claim rules out: an `insert` segment directly
followed by a `delete` segment. -/
def NoInsDel (s1 s2 : DiffSegment) : Prop :=
  ¬(s1.kind = SegKind.insert ∧ s2.kind = SegKind.delete)

/-- The opcode loop never emits an `insert` segment directly followed by
a `delete` segment, provided only the final block (the sentinel) may
have size zero. -/
theorem opcodeLoop_chain (a b : List Nat) :
    ∀ (bs : List (Nat × Nat × Nat)) (i j : Nat),
    (∀ blk ∈ bs.dropLast, blk.2.2 ≠ 0) →
    List.Chain' NoInsDel ((opcodeLoop i j bs).flatMap (opcodeSegments a b)) := by
  intro bs
  induction bs with
  | nil =>
    intro i j _
    simp [opcodeLoop]
  | cons blk rest ih =>
    rcases blk with ⟨ai, bj, size⟩
    intro i j h
    simp only [opcodeLoop, List.flatMap_append]
    have hgapchain : List.Chain' NoInsDel
        ((if i < ai ∧ j < bj then [(OpTag.replace, i, ai, j, bj)]
          else if i < ai then [(OpTag.delete, i, ai, j, bj)]
          else if j < bj then [(OpTag.insert, i, ai, j, bj)]
          else []).flatMap (opcodeSegments a b)) := by
      by_cases hc1 : i < ai ∧ j < bj
      · rw [if_pos hc1]
        simp [opcodeSegments, List.chain'_cons, NoInsDel]
      · rw [if_neg hc1]
        by_cases hc2 : i < ai
        · rw [if_pos hc2]
          simp [opcodeSegments]
        · rw [if_neg hc2]
          by_cases hc3 : j < bj
          · rw [if_pos hc3]
            simp [opcodeSegments]
          · rw [if_neg hc3]
            simp
    have hjunction : ∀ (x y : DiffSegment), y.kind ≠ SegKind.delete →
        NoInsDel x y := by
      intro x y hy hxy
      exact hy hxy.2
    have hjunction2 : ∀ (x y : DiffSegment), x.kind ≠ SegKind.insert →
        NoInsDel x y := by
      intro x y hx hxy
      exact hx hxy.1
    by_cases hsz : size ≠ 0
    · rw [if_pos hsz]
      refine List.Chain'.append (List.Chain'.append hgapchain ?_ ?_) ?_ ?_
      · -- the singleton equal segment is a chain
        simp [opcodeSegments]
      · -- junction gap -> equal: the next segment is an equal one
        intro x hx y hy
        refine hjunction x y ?_
        simp only [opcodeSegments, List.flatMap_cons, List.flatMap_nil,
          List.append_nil, List.head?_cons, Option.mem_def,
          Option.some.injEq] at hy
        rw [← hy]
        simp
      · -- the recursion is a chain
        refine ih (ai + size) (bj + size) ?_
        intro blk hblk
        refine h blk ?_
        rcases rest with - | ⟨b2, rest2⟩
        · simp at hblk
        · simp only [List.dropLast_cons₂, List.mem_cons] at hblk ⊢
          simp [hblk]
      · -- junction equal -> recursion: the previous segment is equal
        intro x hx y hy
        refine hjunction2 x y ?_
        simp only [opcodeSegments, List.flatMap_cons, List.flatMap_nil,
          List.append_nil] at hx
        rw [List.getLast?_concat] at hx
        simp only [Option.mem_def, Option.some.injEq] at hx
        rw [← hx]
        simp
    · rw [if_neg hsz]
      have hrest : rest = [] := by
        rcases rest with - | ⟨b2, rest2⟩
        · rfl
        · exfalso
          refine hsz (h (ai, bj, size) ?_)
          simp [List.dropLast_cons₂]
      rw [hrest]
      simp only [List.flatMap_nil, opcodeLoop, List.append_nil]
      exact hgapchain

/-- C9: in the endpoint's diff, an aligned substitution block (a
`replace` opcode) always contributes a `delete` segment holding the
original substring immediately followed by an `insert` segment holding
the cleaned substring — and globally, no `insert` segment is ever
directly followed by a `delete` segment. -/
theorem C9_substitution_order (s : List Nat) :
    (∀ i1 i2 j1 j2, (OpTag.replace, i1, i2, j1, j2) ∈
        get_opcodes s (strip_non_human_chars s) →
      ∃ l r, diff_segments s (strip_non_human_chars s) =
        l ++ ⟨SegKind.delete, slice s i1 i2⟩ ::
          ⟨SegKind.insert, slice (strip_non_human_chars s) j1 j2⟩ :: r) ∧
    List.Chain' NoInsDel (diff_segments s (strip_non_human_chars s)) := by
  constructor
  · intro i1 i2 j1 j2 hmem
    obtain ⟨l1, l2, hsplit⟩ := List.mem_iff_append.mp hmem
    refine ⟨l1.flatMap (opcodeSegments s (strip_non_human_chars s)),
      l2.flatMap (opcodeSegments s (strip_non_human_chars s)), ?_⟩
    unfold diff_segments
    rw [hsplit, List.flatMap_append, List.flatMap_cons]
    rfl
  · unfold diff_segments get_opcodes get_matching_blocks
    apply opcodeLoop_chain
    intro blk hblk
    rw [List.dropLast_concat] at hblk
    exact collapseBlocks_nonzero _ _ _ _ _ hblk

/-- Witness for C9 at the input `"—"`, whose diff is a single
substitution. -/
theorem C9_substitution_order_witness :
    ((OpTag.replace, 0, 1, 0, 1) ∈
      get_opcodes [0x2014] (strip_non_human_chars [0x2014])) ∧
    (∃ l r, diff_segments [0x2014] (strip_non_human_chars [0x2014]) =
      l ++ ⟨SegKind.delete, slice [0x2014] 0 1⟩ ::
        ⟨SegKind.insert, slice (strip_non_human_chars [0x2014]) 0 1⟩ :: r) :=
  ⟨by decide, (C9_substitution_order [0x2014]).1 0 1 0 1 (by decide)⟩

end AIStripper
